import Mathlib

/-!
Verification of the transform library in `src/preprocessing.py` (repository
Yngvine/MLopsLab).  Each Python function is embedded shallowly: numeric
values are modelled as rationals (reals where a square root occurs), Python
strings as `String`/`List Char`, and heterogeneous cells as a tagged union
`PyVal`.  Every definition mirrors the corresponding source function line by
line; theorems then settle the specification's claims about them.
-/

namespace MLops

/-! ### Numeric transforms over ℚ -/

/-- Embedding of Python `min(data)` on a non-empty list: folds `min` over the
tail starting from the head.  The `0` default for `[]` is never reached by
callers (they guard on emptiness first, as the source does). -/
def listMin : List ℚ → ℚ
  | [] => 0
  | x :: xs => xs.foldl min x

/-- Embedding of Python `max(data)` on a non-empty list. -/
def listMax : List ℚ → ℚ
  | [] => 0
  | x :: xs => xs.foldl max x

/-- `minmax_normalize(data, min_val=0.0, max_val=1.0)` from
`src/preprocessing.py`.  The source immediately rebinds `min_val = min(data)`
and `max_val = max(data)`, shadowing both parameters, which the `let`
bindings reproduce. -/
def minmax_normalize (data : List ℚ) (min_val : ℚ) (max_val : ℚ) : List ℚ :=
  if data = [] then data
  else
    let min_val := listMin data
    let max_val := listMax data
    if min_val = max_val then data.map (fun _ => 0)
    else data.map (fun item => (item - min_val) / (max_val - min_val))

/-- `clip_values(data, min_threshold, max_threshold)` from
`src/preprocessing.py`: `[max(min(item, max_threshold), min_threshold) for
item in data]`. -/
def clip_values (data : List ℚ) (min_threshold max_threshold : ℚ) : List ℚ :=
  data.map (fun item => max (min item max_threshold) min_threshold)

/-! #### Fold lemmas for `listMin`/`listMax` -/

lemma foldl_min_mem (xs : List ℚ) : ∀ a : ℚ, xs.foldl min a ∈ a :: xs := by
  induction xs with
  | nil => intro a; simp
  | cons y ys ih =>
    intro a
    have h := ih (min a y)
    rcases List.mem_cons.mp h with h1 | h1
    · rcases min_choice a y with hc | hc <;> rw [List.foldl_cons, h1, hc] <;> simp
    · simp [List.foldl_cons, List.mem_cons.mpr (Or.inr h1)]

lemma foldl_max_mem (xs : List ℚ) : ∀ a : ℚ, xs.foldl max a ∈ a :: xs := by
  induction xs with
  | nil => intro a; simp
  | cons y ys ih =>
    intro a
    have h := ih (max a y)
    rcases List.mem_cons.mp h with h1 | h1
    · rcases max_choice a y with hc | hc <;> rw [List.foldl_cons, h1, hc] <;> simp
    · simp [List.foldl_cons, List.mem_cons.mpr (Or.inr h1)]

lemma foldl_min_le (xs : List ℚ) : ∀ a : ℚ, ∀ x ∈ a :: xs, xs.foldl min a ≤ x := by
  induction xs with
  | nil => intro a x hx; simp at hx; simp [hx]
  | cons y ys ih =>
    intro a x hx
    rw [List.foldl_cons]
    rcases List.mem_cons.mp hx with h1 | h1
    · subst h1
      exact le_trans (ih (min x y) _ (List.mem_cons_self _ _)) (min_le_left x y)
    · rcases List.mem_cons.mp h1 with h2 | h2
      · subst h2
        exact le_trans (ih (min a x) _ (List.mem_cons_self _ _)) (min_le_right a x)
      · exact ih (min a y) x (List.mem_cons.mpr (Or.inr h2))

lemma le_foldl_max (xs : List ℚ) : ∀ a : ℚ, ∀ x ∈ a :: xs, x ≤ xs.foldl max a := by
  induction xs with
  | nil => intro a x hx; simp at hx; simp [hx]
  | cons y ys ih =>
    intro a x hx
    rw [List.foldl_cons]
    rcases List.mem_cons.mp hx with h1 | h1
    · subst h1
      exact le_trans (le_max_left x y) (ih (max x y) _ (List.mem_cons_self _ _))
    · rcases List.mem_cons.mp h1 with h2 | h2
      · subst h2
        exact le_trans (le_max_right a x) (ih (max a x) _ (List.mem_cons_self _ _))
      · exact ih (max a y) x (List.mem_cons.mpr (Or.inr h2))

lemma listMin_mem (data : List ℚ) (h : data ≠ []) : listMin data ∈ data := by
  cases data with
  | nil => exact absurd rfl h
  | cons x xs => exact foldl_min_mem xs x

lemma listMax_mem (data : List ℚ) (h : data ≠ []) : listMax data ∈ data := by
  cases data with
  | nil => exact absurd rfl h
  | cons x xs => exact foldl_max_mem xs x

lemma listMin_le (data : List ℚ) (x : ℚ) (hx : x ∈ data) : listMin data ≤ x := by
  cases data with
  | nil => simp at hx
  | cons y ys => exact foldl_min_le ys y x hx

lemma le_listMax (data : List ℚ) (x : ℚ) (hx : x ∈ data) : x ≤ listMax data := by
  cases data with
  | nil => simp at hx
  | cons y ys => exact le_foldl_max ys y x hx

lemma clip_step (lo hi x : ℚ) :
    max (min (max (min x hi) lo) hi) lo = max (min x hi) lo := by
  rcases le_total lo hi with hlh | hhl
  · have hy : lo ≤ max (min x hi) lo := le_max_right _ _
    have hy' : max (min x hi) lo ≤ hi := max_le (min_le_right x hi) hlh
    rw [min_eq_left hy', max_eq_left hy]
  · have h1 : max (min x hi) lo = lo :=
      max_eq_right (le_trans (min_le_right x hi) hhl)
    rw [h1, min_eq_right hhl, max_eq_right hhl]

/-- C1: `minmax_normalize` ignores its bound parameters entirely: the result
is the same for every choice of `min_val`/`max_val`; `listMin`/`listMax` are
the actual minimum and maximum of the input; when they differ the output is
`(x - m) / (M - m)` elementwise, when all elements are equal it is a list of
zeros of the same length, and the empty list maps to the empty list. -/
theorem claim_C1 (data : List ℚ) (a b c d : ℚ) (h : data ≠ []) :
    minmax_normalize data a b = minmax_normalize data c d ∧
    (listMin data ∈ data ∧ ∀ x ∈ data, listMin data ≤ x) ∧
    (listMax data ∈ data ∧ ∀ x ∈ data, x ≤ listMax data) ∧
    (listMin data ≠ listMax data →
      minmax_normalize data a b =
        data.map (fun x => (x - listMin data) / (listMax data - listMin data))) ∧
    ((∀ x ∈ data, ∀ y ∈ data, x = y) →
      minmax_normalize data a b = List.replicate data.length 0) ∧
    minmax_normalize [] a b = [] := by
  refine ⟨rfl, ⟨listMin_mem data h, fun x hx => listMin_le data x hx⟩,
    ⟨listMax_mem data h, fun x hx => le_listMax data x hx⟩, ?_, ?_, rfl⟩
  · intro hne
    simp only [minmax_normalize, if_neg h, if_neg hne]
  · intro hall
    have heq : listMin data = listMax data :=
      hall _ (listMin_mem data h) _ (listMax_mem data h)
    simp only [minmax_normalize, if_neg h, if_pos heq]
    exact List.map_const' data 0

theorem claim_C1_witness :
    (([1, 2, 3, 4, 5] : List ℚ) ≠ []) ∧
    minmax_normalize [1, 2, 3, 4, 5] 7 9 = minmax_normalize [1, 2, 3, 4, 5] 0 1 :=
  ⟨by decide, (claim_C1 [1, 2, 3, 4, 5] 7 9 0 1 (by decide)).1⟩

/-- C3 fails as stated: with `min_threshold = 2 > max_threshold = 1` the
output element of `clip_values [0] 2 1` is `2`, which violates
`x ≤ max_threshold`. -/
theorem claim_C3_counterexample :
    ¬ ∀ x ∈ clip_values [0] 2 1, (2 : ℚ) ≤ x ∧ x ≤ 1 := by decide

/-- C3 (amended): under the hypothesis `min_threshold ≤ max_threshold`,
`clip_values` preserves length, acts elementwise (position `i` of the output
depends only on position `i` of the input), and every output element lies in
`[min_threshold, max_threshold]`. -/
theorem claim_C3_clip_bounds (data : List ℚ) (min_threshold max_threshold : ℚ)
    (h : min_threshold ≤ max_threshold) :
    (clip_values data min_threshold max_threshold).length = data.length ∧
    (∀ i, (clip_values data min_threshold max_threshold).get? i =
      (data.get? i).map (fun x => max (min x max_threshold) min_threshold)) ∧
    ∀ x ∈ clip_values data min_threshold max_threshold,
      min_threshold ≤ x ∧ x ≤ max_threshold := by
  refine ⟨List.length_map data _, fun i => List.get?_map _ data i, ?_⟩
  intro x hx
  obtain ⟨a, _, rfl⟩ := List.mem_map.mp hx
  exact ⟨le_max_right _ _, max_le (min_le_right a max_threshold) h⟩

theorem claim_C3_clip_bounds_witness :
    ((0 : ℚ) ≤ 1) ∧
    ∀ x ∈ clip_values [5, -3, 1/2] 0 1, (0 : ℚ) ≤ x ∧ x ≤ 1 :=
  ⟨by decide, (claim_C3_clip_bounds [5, -3, 1/2] 0 1 (by decide)).2.2⟩

/-- C8: `clip_values` is idempotent for every pair of thresholds, including
pairs with `min_threshold > max_threshold`. -/
theorem claim_C8 (data : List ℚ) (min_threshold max_threshold : ℚ) :
    clip_values (clip_values data min_threshold max_threshold)
        min_threshold max_threshold =
      clip_values data min_threshold max_threshold := by
  simp only [clip_values, List.map_map, Function.comp]
  exact congrArg (fun f => List.map f data)
    (funext fun x => clip_step min_threshold max_threshold x)

/-- C9: when `min_threshold > max_threshold`, every element of the output of
`clip_values` equals `min_threshold`, because the `max` with `min_threshold`
is applied after the `min` with `max_threshold`. -/
theorem claim_C9 (data : List ℚ) (min_threshold max_threshold : ℚ)
    (h : max_threshold < min_threshold) :
    ∀ x ∈ clip_values data min_threshold max_threshold, x = min_threshold := by
  intro x hx
  obtain ⟨a, _, rfl⟩ := List.mem_map.mp hx
  exact max_eq_right (le_trans (min_le_right a max_threshold) (le_of_lt h))

theorem claim_C9_witness :
    ((1 : ℚ) < 2) ∧ ∀ x ∈ clip_values [0, 5] 2 1, x = 2 :=
  ⟨by decide, claim_C9 [0, 5] 2 1 (by decide)⟩

/-! ### `lst_to_ints`

Python's `str.isdigit` is true for every character with the Unicode digit
property, a strictly larger set than the decimal-digit category Nd that
`int()` accepts.  The embedding models the fragment of the Unicode tables
relevant to the claim: the ASCII digits U+0030-U+0039 and the Arabic-Indic
digits U+0660-U+0669 as representatives of Nd, and the superscript digits
U+00B2, U+00B3 and U+00B9 as representatives of digit-property characters
outside Nd.  On the latter `int()` raises `ValueError`; fallibility is
modelled with `Option`, `none` standing for the raised exception. -/

/-- Unicode decimal-digit category Nd (fragment): ASCII digits and
Arabic-Indic digits. -/
def isNdDigit (c : Char) : Bool :=
  ('0' ≤ c && c ≤ '9') || (0x660 ≤ c.toNat && c.toNat ≤ 0x669)

/-- Python `str.isdigit` on one character: the Unicode digit property
(fragment): every Nd digit plus the superscript digits ², ³ and ¹. -/
def pyIsDigitChar (c : Char) : Bool :=
  isNdDigit c || c.toNat = 0xB2 || c.toNat = 0xB3 || c.toNat = 0xB9

/-- Python `s.isdigit()`: non-empty and every character has the digit
property. -/
def str_isdigit (s : String) : Bool :=
  !s.data.isEmpty && s.data.all pyIsDigitChar

/-- The numeric value of an Nd digit: offset from the zero of its block. -/
def ndVal (c : Char) : Nat :=
  if '0' ≤ c && c ≤ '9' then c.toNat - 0x30 else c.toNat - 0x660

/-- Python `int(s)` on a sign-free, space-free token: succeeds exactly when
the token is non-empty and consists of Nd digits, read in decimal; `none`
models the `ValueError` raised otherwise.  (The whitespace/sign handling of
`int` is omitted: the call site only passes tokens `str.isdigit` accepted,
which contain neither.) -/
def pyInt (s : String) : Option Nat :=
  if !s.data.isEmpty && s.data.all isNdDigit then
    Option.some (s.data.foldl (fun acc c => 10 * acc + ndVal c) 0)
  else Option.none

/-- `lst_to_ints(data)` from `src/preprocessing.py`:
`[int(item) for item in data if item.isdigit()]`.  The comprehension
filters by `isdigit` and converts each kept token left to right; the first
failing conversion raises, which the `Option`-valued `mapM` propagates as
`none`. -/
def lst_to_ints (data : List String) : Option (List Nat) :=
  (data.filter str_isdigit).mapM pyInt

/-- C2 fails on the code: on `['²']` (superscript two, U+00B2) the
comprehension raises `ValueError`, because `'²'.isdigit()` is true while
`int('²')` has no decimal reading — so `lst_to_ints` does not return
normally on every list of strings, contradicting the spec's totality
sentence and the docstring's promise that non-convertible elements are
excluded.  Moreover a token of non-ASCII Nd digits such as `'٤'` (U+0664)
is kept and converted, so the kept set is not "tokens composed entirely of
decimal digits" in the ASCII sense either.  The docstring example still
evaluates as documented. -/
theorem claim_C2 :
    lst_to_ints [String.mk [Char.ofNat 0xB2]] = Option.none ∧
    str_isdigit (String.mk [Char.ofNat 0xB2]) = true ∧
    pyInt (String.mk [Char.ofNat 0xB2]) = Option.none ∧
    lst_to_ints [String.mk [Char.ofNat 0x664]] = Option.some [4] ∧
    lst_to_ints ["1", "2", "three", "4", "5five"] = Option.some [1, 2, 4] := by
  refine ⟨by decide, by decide, by decide, by decide, by decide⟩

/-! ### Heterogeneous values: `clean_values` and `fill_values`

The source lists mix numbers, strings, `None` and `float('nan')`; following
the spec's design note they are modelled as a tagged union.  `num` carries a
non-NaN number (as ℚ) and `nan` is the NaN float. -/

inductive PyVal where
  | none
  | str (s : String)
  | num (q : ℚ)
  | nan
deriving DecidableEq

/-- The element classification shared by `clean_values` and `fill_values`:
`item is None or item == ""` or (`isinstance(item, (float, int)) and
math.isnan(item)`).  `None` and `nan` are missing, a string is missing
exactly when it is empty, and a (non-NaN) number is never missing. -/
def isMissingVal : PyVal → Bool
  | PyVal.none => true
  | PyVal.str s => s == ""
  | PyVal.num _ => false
  | PyVal.nan => true

/-- `clean_values(data)` from `src/preprocessing.py`: the loop that skips
missing items and appends the rest is a filter. -/
def clean_values (data : List PyVal) : List PyVal :=
  data.filter (fun item => !(isMissingVal item))

/-- `fill_values(data, fill_value=0)` from `src/preprocessing.py`: the loop
that appends `fill_value` for missing items and the item itself otherwise is
a map. -/
def fill_values (data : List PyVal) (fill_value : PyVal) : List PyVal :=
  data.map (fun item => if isMissingVal item then fill_value else item)

/-- C7: `fill_values` preserves length; at every position the output is the
fill value when the input element is missing by the same rule `clean_values`
uses, and the unchanged input element otherwise; the missing elements are
exactly `None`, the empty string and NaN.  The docstring example evaluates
accordingly. -/
theorem claim_C7 (data : List PyVal) (fill_value : PyVal) :
    (fill_values data fill_value).length = data.length ∧
    (∀ i, (fill_values data fill_value).get? i =
      (data.get? i).map (fun x => if isMissingVal x then fill_value else x)) ∧
    (∀ x, x ∈ clean_values data ↔ x ∈ data ∧ isMissingVal x = false) ∧
    (∀ x, isMissingVal x = true ↔
      (x = PyVal.none ∨ x = PyVal.str "" ∨ x = PyVal.nan)) ∧
    fill_values [PyVal.num 1, PyVal.num 2, PyVal.none, PyVal.str "",
        PyVal.num 3, PyVal.nan] (PyVal.num (-1)) =
      [PyVal.num 1, PyVal.num 2, PyVal.num (-1), PyVal.num (-1),
        PyVal.num 3, PyVal.num (-1)] := by
  refine ⟨List.length_map data _, fun i => List.get?_map _ data i, ?_, ?_, by decide⟩
  · intro x
    simp [clean_values, List.mem_filter]
  · intro x
    cases x <;> simp [isMissingVal]

/-- C10: when the fill value is itself not a missing marker, `clean_values`
leaves the output of `fill_values` unchanged: filling removes every missing
marker. -/
theorem claim_C10 (data : List PyVal) (fill_value : PyVal)
    (h : isMissingVal fill_value = false) :
    clean_values (fill_values data fill_value) = fill_values data fill_value := by
  unfold clean_values fill_values
  rw [List.filter_eq_self]
  intro a ha
  obtain ⟨x, _, rfl⟩ := List.mem_map.mp ha
  cases hb : isMissingVal x <;> simp [hb, h]

theorem claim_C10_witness :
    isMissingVal (PyVal.num 0) = false ∧
    clean_values (fill_values [PyVal.none, PyVal.num 3, PyVal.str "", PyVal.nan]
        (PyVal.num 0)) =
      fill_values [PyVal.none, PyVal.num 3, PyVal.str "", PyVal.nan] (PyVal.num 0) :=
  ⟨by decide,
    claim_C10 [PyVal.none, PyVal.num 3, PyVal.str "", PyVal.nan] (PyVal.num 0)
      (by decide)⟩

/-! ### `clean_stop_words`

Text is modelled as `List Char`.  `splitWsAux` embeds Python `str.split()`
(no argument): split on runs of whitespace, emitting no empty tokens. -/

def splitWsAux : List Char → List Char → List (List Char)
  | [], acc => if acc = [] then [] else [acc.reverse]
  | c :: cs, acc =>
    if c.isWhitespace then
      (if acc = [] then splitWsAux cs [] else acc.reverse :: splitWsAux cs [])
    else splitWsAux cs (c :: acc)

/-- Python `text.split()`. -/
def pySplit (text : List Char) : List (List Char) :=
  splitWsAux text []

/-- Python `word.lower()` (ASCII case folding, as in `Char.toLower`). -/
def lowerToken (w : List Char) : List Char :=
  w.map Char.toLower

/-- Python `" ".join(ws)`. -/
def joinSp : List (List Char) → List Char
  | [] => []
  | [w] => w
  | w :: v :: ws => w ++ ' ' :: joinSp (v :: ws)

/-- `clean_stop_words(text, stopwords)` from `src/preprocessing.py`:
`" ".join([word for word in text.split() if word.lower() not in stopwords])`.
The stopword set is modelled as a list with membership lookup. -/
def clean_stop_words (text : List Char) (stopwords : List (List Char)) : List Char :=
  joinSp ((pySplit text).filter (fun word => !(stopwords.contains (lowerToken word))))

lemma splitWsAux_append_nonws (l : List Char) (hl : ∀ c ∈ l, c.isWhitespace = false) :
    ∀ r acc : List Char, splitWsAux (l ++ r) acc = splitWsAux r (l.reverse ++ acc) := by
  induction l with
  | nil => intro r acc; simp
  | cons c l' ih =>
    intro r acc
    have hc : c.isWhitespace = false := hl c (List.mem_cons_self _ _)
    have hl' : ∀ x ∈ l', x.isWhitespace = false :=
      fun x hx => hl x (List.mem_cons.mpr (Or.inr hx))
    simp only [List.cons_append, splitWsAux, hc, Bool.false_eq_true, if_false,
      List.append_eq]
    rw [ih hl' r (c :: acc)]
    simp [List.append_assoc]

lemma splitWsAux_tokens (s : List Char) :
    ∀ acc, (∀ c ∈ acc, c.isWhitespace = false) →
      ∀ w ∈ splitWsAux s acc, w ≠ [] ∧ ∀ c ∈ w, c.isWhitespace = false := by
  induction s with
  | nil =>
    intro acc hacc w hw
    by_cases h : acc = []
    · simp [splitWsAux, h] at hw
    · simp only [splitWsAux, if_neg h, List.mem_singleton] at hw
      subst hw
      refine ⟨by simpa using h, ?_⟩
      intro c hc
      exact hacc c (List.mem_reverse.mp hc)
  | cons c cs ih =>
    intro acc hacc w hw
    by_cases hc : c.isWhitespace = true
    · by_cases h : acc = []
      · simp only [splitWsAux, hc, if_true, if_pos h] at hw
        exact ih [] (by simp) w hw
      · simp only [splitWsAux, hc, if_true, if_neg h, List.mem_cons] at hw
        rcases hw with hw | hw
        · subst hw
          refine ⟨by simpa using h, ?_⟩
          intro x hx
          exact hacc x (List.mem_reverse.mp hx)
        · exact ih [] (by simp) w hw
    · simp only [splitWsAux, hc, if_false] at hw
      refine ih (c :: acc) ?_ w hw
      intro x hx
      rcases List.mem_cons.mp hx with h1 | h1
      · subst h1; simpa using hc
      · exact hacc x h1

lemma pySplit_tokens (text : List Char) :
    ∀ w ∈ pySplit text, w ≠ [] ∧ ∀ c ∈ w, c.isWhitespace = false :=
  splitWsAux_tokens text [] (by simp)

lemma pySplit_joinSp (ws : List (List Char))
    (h : ∀ w ∈ ws, w ≠ [] ∧ ∀ c ∈ w, c.isWhitespace = false) :
    pySplit (joinSp ws) = ws := by
  induction ws with
  | nil => rfl
  | cons w ws ih =>
    obtain ⟨hw, hwc⟩ := h w (List.mem_cons_self _ _)
    have h' : ∀ v ∈ ws, v ≠ [] ∧ ∀ c ∈ v, c.isWhitespace = false :=
      fun v hv => h v (List.mem_cons.mpr (Or.inr hv))
    cases ws with
    | nil =>
      show splitWsAux (joinSp [w]) [] = [w]
      have : joinSp [w] = w ++ [] := by simp [joinSp]
      rw [this, splitWsAux_append_nonws w hwc [] []]
      simp [splitWsAux, hw]
    | cons v ws' =>
      show splitWsAux (w ++ ' ' :: joinSp (v :: ws')) [] = w :: v :: ws'
      rw [splitWsAux_append_nonws w hwc (' ' :: joinSp (v :: ws')) []]
      have hsp : (' ' : Char).isWhitespace = true := by decide
      have hne : w.reverse ++ [] ≠ [] := by simpa using hw
      simp only [splitWsAux, hsp, if_true, if_neg hne]
      have hrec : splitWsAux (joinSp (v :: ws')) [] = v :: ws' := ih h'
      rw [hrec]
      simp

/-- C4: `clean_stop_words` splits the text on whitespace runs, drops exactly
the tokens whose lowercased form is in the stopword set (with no punctuation
stripping before the comparison), and rejoins the survivors in order with
single spaces — so re-splitting the result yields exactly the surviving
tokens.  The docstring example keeps `removal.` intact, and the second
example shows `cat,` surviving although `cat` is a stopword. -/
theorem claim_C4 (text : List Char) (stopwords : List (List Char)) :
    clean_stop_words text stopwords =
      joinSp ((pySplit text).filter
        (fun w => !(stopwords.contains (lowerToken w)))) ∧
    pySplit (clean_stop_words text stopwords) =
      (pySplit text).filter (fun w => !(stopwords.contains (lowerToken w))) ∧
    clean_stop_words ("This is a test of the stopword removal.".data)
        ["is".data, "a".data, "the".data, "this".data] =
      "test of stopword removal.".data ∧
    clean_stop_words ("The cat, the dog.".data) ["the".data, "cat".data] =
      "cat, dog.".data := by
  refine ⟨rfl, ?_, by decide, by decide⟩
  unfold clean_stop_words
  apply pySplit_joinSp
  intro w hw
  exact pySplit_tokens text w (List.mem_of_mem_filter hw)

/-! ### `lst_shuffle`

`random.shuffle` runs a Fisher–Yates loop: for `i` from `len(x) - 1` down to
`1` it draws `j` uniformly from `[0, i]` and swaps `x[i]` and `x[j]`.  The
random draws are modelled by an oracle `rng : Nat → Nat`; the draw at index
`i` is `rng i % (i + 1)`, which like Python's `_randbelow(i + 1)` always
lies in `[0, i]`.  Seeding (`random.seed(seed)`) only selects which oracle
the generator realises, so quantifying over all oracles covers every seed,
including the unseeded case. -/

/-- Python's parallel assignment `x[i], x[j] = x[j], x[i]`: read both cells,
then write both.  Out-of-range indices (never produced by the shuffle loop)
leave the list unchanged. -/
def listSwap {α : Type} (l : List α) (i j : Nat) : List α :=
  if h : i < l.length ∧ j < l.length then
    (l.set i (l.get ⟨j, h.2⟩)).set j (l.get ⟨i, h.1⟩)
  else l

/-- The Fisher–Yates loop of `random.shuffle`, iterating the swap at index
`i` for `i = n, n-1, ..., 1`. -/
def fyAux {α : Type} (rng : Nat → Nat) : List α → Nat → List α
  | l, 0 => l
  | l, i + 1 => fyAux rng (listSwap l (i + 1) (rng (i + 1) % (i + 2))) i

/-- `lst_shuffle(data, seed=None)` from `src/preprocessing.py`: copies the
list and runs `random.shuffle` on the copy. -/
def lst_shuffle {α : Type} (data : List α) (rng : Nat → Nat) : List α :=
  fyAux rng data (data.length - 1)

lemma perm_cons_set {α : Type} (l : List α) :
    ∀ (m : Nat) (h : m < l.length) (x : α),
      (l.get ⟨m, h⟩ :: l.set m x).Perm (x :: l) := by
  induction l with
  | nil => intro m h x; simp at h
  | cons b t ih =>
    intro m h x
    cases m with
    | zero => simpa using List.Perm.swap _ _ _
    | succ n =>
      have h' : n < t.length := by simpa using h
      have step1 : (t.get ⟨n, h'⟩ :: b :: t.set n x).Perm
          (b :: t.get ⟨n, h'⟩ :: t.set n x) := List.Perm.swap _ _ _
      have step2 : (b :: t.get ⟨n, h'⟩ :: t.set n x).Perm (b :: x :: t) :=
        (ih n h' x).cons b
      have step3 : (b :: x :: t).Perm (x :: b :: t) := List.Perm.swap _ _ _
      simpa using (step1.trans step2).trans step3

lemma listSwap_perm {α : Type} (l : List α) (i j : Nat) :
    (listSwap l i j).Perm l := by
  induction l generalizing i j with
  | nil => simp [listSwap]
  | cons a t ih =>
    by_cases h : i < (a :: t).length ∧ j < (a :: t).length
    · cases i with
      | zero =>
        cases j with
        | zero => simp [listSwap, h]
        | succ m =>
          have hm : m < t.length := by
            have := h.2; simpa using this
          simp only [listSwap, dif_pos h, List.get_cons_succ, List.set_cons_zero,
            List.get_cons_zero, List.set_cons_succ]
          exact perm_cons_set t m hm a
      | succ n =>
        have hn : n < t.length := by
          have := h.1; simpa using this
        cases j with
        | zero =>
          simp only [listSwap, dif_pos h, List.get_cons_zero, List.set_cons_succ,
            List.get_cons_succ, List.set_cons_zero]
          exact perm_cons_set t n hn a
        | succ m =>
          have hm : m < t.length := by
            have := h.2; simpa using this
          have h' : n < t.length ∧ m < t.length := ⟨hn, hm⟩
          simp only [listSwap, dif_pos h, List.get_cons_succ, List.set_cons_succ]
          have hrec := ih n m
          simp only [listSwap, dif_pos h'] at hrec
          exact hrec.cons a
    · have h2 : ¬(i < t.length + 1 ∧ j < t.length + 1) := by simpa using h
      simp [listSwap, h2]

lemma fyAux_perm {α : Type} (rng : Nat → Nat) :
    ∀ (n : Nat) (l : List α), (fyAux rng l n).Perm l := by
  intro n
  induction n with
  | zero => intro l; simp [fyAux]
  | succ i ih =>
    intro l
    exact (ih _).trans (listSwap_perm l (i + 1) (rng (i + 1) % (i + 2)))

/-- C6: for every input list and every realisation of the random draws
(hence every seed, or none), `lst_shuffle` returns a permutation of its
input: the same multiset of elements, equal length, and an equal sorted
form. -/
theorem claim_C6 {α : Type} [LinearOrder α] (data : List α) (rng : Nat → Nat) :
    (lst_shuffle data rng).Perm data ∧
    ((lst_shuffle data rng : List α) : Multiset α) = (data : Multiset α) ∧
    (lst_shuffle data rng).length = data.length ∧
    List.insertionSort (· ≤ ·) (lst_shuffle data rng) =
      List.insertionSort (· ≤ ·) data := by
  have hp : (lst_shuffle data rng).Perm data := fyAux_perm rng _ data
  refine ⟨hp, Multiset.coe_eq_coe.mpr hp, hp.length_eq, ?_⟩
  refine List.eq_of_perm_of_sorted
    ((List.perm_insertionSort _ _).trans (hp.trans (List.perm_insertionSort _ _).symm))
    (List.sorted_insertionSort _ _) (List.sorted_insertionSort _ _)

/-! ### `z_score_standardize`

Modelled over the reals: `mean_val = sum(data) / len(data)`,
`variance = sum((item - mean_val) ** 2 for item in data) / len(data)` and
`std_dev = variance ** 0.5`, where `** 0.5` is the real square root (the
variance is a sum of squares divided by a nonnegative count, so it is
nonnegative and the two agree). -/

noncomputable def listMean (l : List ℝ) : ℝ := l.sum / l.length

noncomputable def listPVar (l : List ℝ) : ℝ :=
  (l.map (fun item => (item - listMean l) ^ 2)).sum / l.length

noncomputable def listPStd (l : List ℝ) : ℝ := Real.sqrt (listPVar l)

noncomputable def z_score_standardize (data : List ℝ) : List ℝ :=
  if data = [] then data
  else if listPStd data = 0 then data.map (fun _ => 0)
  else data.map (fun item => (item - listMean data) / listPStd data)

lemma sum_map_sub_const (l : List ℝ) (c : ℝ) :
    (l.map (fun x => x - c)).sum = l.sum - l.length * c := by
  induction l with
  | nil => simp
  | cons a t ih =>
    simp only [List.map_cons, List.sum_cons, ih, List.length_cons]
    push_cast
    ring

lemma sum_map_sub_div (l : List ℝ) (c d : ℝ) :
    (l.map (fun x => (x - c) / d)).sum = (l.map (fun x => x - c)).sum / d := by
  induction l with
  | nil => simp
  | cons a t ih => simp [ih, add_div]

lemma sum_map_sq_div (l : List ℝ) (c d : ℝ) :
    (l.map (fun x => ((x - c) / d) ^ 2)).sum =
      (l.map (fun x => (x - c) ^ 2)).sum / d ^ 2 := by
  induction l with
  | nil => simp
  | cons a t ih => rw [List.map_cons, List.map_cons, List.sum_cons, List.sum_cons, ih, div_pow, add_div]

lemma sum_sq_nonneg (l : List ℝ) (c : ℝ) :
    0 ≤ (l.map (fun x => (x - c) ^ 2)).sum := by
  apply List.sum_nonneg
  intro x hx
  obtain ⟨a, _, rfl⟩ := List.mem_map.mp hx
  positivity

lemma sum_nonneg_all_zero (l : List ℝ) (h0 : ∀ x ∈ l, 0 ≤ x) (hs : l.sum = 0) :
    ∀ x ∈ l, x = 0 := by
  induction l with
  | nil => simp
  | cons a t ih =>
    have ha : 0 ≤ a := h0 a (List.mem_cons_self _ _)
    have ht : 0 ≤ t.sum :=
      List.sum_nonneg fun x hx => h0 x (List.mem_cons.mpr (Or.inr hx))
    simp only [List.sum_cons] at hs
    have ha0 : a = 0 := by linarith
    have hts : t.sum = 0 := by linarith
    intro x hx
    rcases List.mem_cons.mp hx with h1 | h1
    · rw [h1, ha0]
    · exact ih (fun y hy => h0 y (List.mem_cons.mpr (Or.inr hy))) hts x h1

lemma length_ne_zero (l : List ℝ) (h : l ≠ []) : (l.length : ℝ) ≠ 0 := by
  have h0 : l.length ≠ 0 := by
    intro h0
    exact h (List.length_eq_zero.mp h0)
  exact_mod_cast h0

lemma listMean_mul (l : List ℝ) (h : l ≠ []) :
    (l.length : ℝ) * listMean l = l.sum := by
  have := length_ne_zero l h
  field_simp [listMean]

lemma sum_center (l : List ℝ) (h : l ≠ []) :
    (l.map (fun x => x - listMean l)).sum = 0 := by
  rw [sum_map_sub_const]
  have := listMean_mul l h
  linarith

lemma mean_zmap (l : List ℝ) (h : l ≠ []) (d : ℝ) :
    listMean (l.map (fun x => (x - listMean l) / d)) = 0 := by
  rw [listMean, List.length_map, sum_map_sub_div, sum_center l h]
  simp

lemma pvar_zmap (l : List ℝ) (h : l ≠ []) (d : ℝ) :
    listPVar (l.map (fun x => (x - listMean l) / d)) = listPVar l / d ^ 2 := by
  unfold listPVar
  rw [mean_zmap l h d, List.length_map, List.map_map]
  have hcomp :
      ((fun item => (item - 0) ^ 2) ∘ fun x => (x - listMean l) / d) =
        fun x => ((x - listMean l) / d) ^ 2 := by
    funext x
    simp
  rw [hcomp, sum_map_sq_div, div_right_comm]

lemma listPVar_nonneg (l : List ℝ) : 0 ≤ listPVar l :=
  div_nonneg (sum_sq_nonneg l _) (Nat.cast_nonneg _)

lemma listPStd_sq (l : List ℝ) : listPStd l ^ 2 = listPVar l :=
  Real.sq_sqrt (listPVar_nonneg l)

lemma listPVar_eq_zero_of_std (l : List ℝ) (h : listPStd l = 0) : listPVar l = 0 :=
  le_antisymm (Real.sqrt_eq_zero'.mp h) (listPVar_nonneg l)

lemma all_eq_mean_of_pvar_zero (l : List ℝ) (h : l ≠ []) (hv : listPVar l = 0) :
    ∀ x ∈ l, x = listMean l := by
  have hN := length_ne_zero l h
  have hss : (l.map (fun x => (x - listMean l) ^ 2)).sum = 0 := by
    unfold listPVar at hv
    rcases div_eq_zero_iff.mp hv with h1 | h1
    · exact h1
    · exact absurd h1 hN
  intro x hx
  have hz := sum_nonneg_all_zero _
    (fun y hy => by
      obtain ⟨a, _, rfl⟩ := List.mem_map.mp hy
      positivity) hss ((x - listMean l) ^ 2) (List.mem_map.mpr ⟨x, hx, rfl⟩)
  have := pow_eq_zero_iff (n := 2) (by norm_num) |>.mp hz
  linarith [sub_eq_zero.mp this]

theorem claim_C5 (data : List ℝ) (h : data ≠ []) :
    (listPStd data ≠ 0 →
      z_score_standardize data =
        data.map (fun x => (x - listMean data) / listPStd data)) ∧
    (listPStd data = 0 →
      z_score_standardize data = List.replicate data.length 0) ∧
    z_score_standardize [] = [] ∧
    ((∃ a ∈ data, ∃ b ∈ data, a ≠ b) →
      listMean (z_score_standardize data) = 0 ∧
      listPStd (z_score_standardize data) = 1) := by
  refine ⟨?_, ?_, rfl, ?_⟩
  · intro hσ
    simp only [z_score_standardize, if_neg h, if_neg hσ]
  · intro hσ
    simp only [z_score_standardize, if_neg h, if_pos hσ]
    exact List.map_const' data 0
  · rintro ⟨a, ha, b, hb, hab⟩
    have hσ : listPStd data ≠ 0 := by
      intro hz
      have hv := listPVar_eq_zero_of_std data hz
      have hall := all_eq_mean_of_pvar_zero data h hv
      exact hab ((hall a ha).trans (hall b hb).symm)
    have hz : z_score_standardize data =
        data.map (fun x => (x - listMean data) / listPStd data) := by
      simp only [z_score_standardize, if_neg h, if_neg hσ]
    have hvar : listPVar data ≠ 0 := by
      intro hv
      apply hσ
      unfold listPStd
      rw [hv, Real.sqrt_zero]
    constructor
    · rw [hz]
      exact mean_zmap data h _
    · rw [hz, listPStd]
      rw [show listPVar (data.map fun x => (x - listMean data) / listPStd data) = 1 by
        rw [pvar_zmap data h _, listPStd_sq, div_self hvar]]
      exact Real.sqrt_one

theorem claim_C5_witness :
    (([1, 2, 3, 4, 5] : List ℝ) ≠ []) ∧
    (listMean (z_score_standardize [1, 2, 3, 4, 5]) = 0 ∧
      listPStd (z_score_standardize [1, 2, 3, 4, 5]) = 1) :=
  ⟨by simp, (claim_C5 [1, 2, 3, 4, 5] (by simp)).2.2.2
    ⟨1, by norm_num, 2, by norm_num, by norm_num⟩⟩

end MLops
